import Mathlib

/-!
Verification development for the nst-QISMEL-mm core (Cinemacloud/aiware).

Shallow embedding of:
  * the NST tensor operations (`coordinatesToIndex`, `get`, `set`,
    `normalize`, `concatenate`) from `src/nst-QISMEL-mm/types.ts` and
    `src/nst-qismel-mm.d.ts`;
  * the state-action fingerprint `generateStateActionKey` from
    `src/nst-qismel-mm.d.ts` (lines 491-505);
  * the Q*ISMEL engine (`chooseAction`, `updateQISMEL`) from
    `src/nst-QISMEL-mm/ActionSelectionModule.ts`.

Modelling conventions:
  * JS numbers are modelled as exact rationals (`ℚ`); the JS float value
    `NaN` is modelled as `none` in an `Option ℚ` where it can arise.
  * Numeric payload entries fed to the fingerprint are modelled as
    integers (`ℤ`); JS renders safe-integer values in decimal exactly as
    the `intRepr` function below does.
  * JS `Map` is modelled as an insertion-ordered association list; the
    `undefined` result of `Map.get`, of out-of-bounds typed-array reads
    and of indexing an empty array is modelled as `none`.
  * JS objects used as string-keyed records keep insertion order, so the
    sensor map is an insertion-ordered association list as well.
-/

/-- Decimal digit character, as produced by JS number rendering. -/
def digitChar : Nat → Char
  | 0 => '0'
  | 1 => '1'
  | 2 => '2'
  | 3 => '3'
  | 4 => '4'
  | 5 => '5'
  | 6 => '6'
  | 7 => '7'
  | 8 => '8'
  | 9 => '9'
  | _ => '*'

/-- Little-endian decimal digits of `n`, with explicit fuel (the fuel `n`
itself always suffices). -/
def natToDigitsRev : Nat → Nat → List Nat
  | 0, _ => []
  | _ + 1, 0 => []
  | f + 1, n + 1 => ((n + 1) % 10) :: natToDigitsRev f ((n + 1) / 10)

/-- Value of a little-endian decimal digit list. -/
def evalDigits : List Nat → Nat
  | [] => 0
  | d :: ds => d + 10 * evalDigits ds

/-- Decimal rendering of a natural number, most significant digit first,
exactly as JS renders a nonnegative integer. -/
def natRepr (n : Nat) : List Char :=
  if n = 0 then ['0'] else ((natToDigitsRev n n).map digitChar).reverse

/-- Decimal rendering of an integer, exactly as JS renders an integral
number value (`ℤ` has no negative zero, matching JS rendering of `-0` as
`"0"`). -/
def intRepr (i : Int) : List Char :=
  if i < 0 then '-' :: natRepr (-i).toNat else natRepr i.toNat

/-- Tail of a JS `Array.prototype.join(',')`: each further element is
preceded by one comma. -/
def joinTail : List (List Char) → List Char
  | [] => []
  | x :: xs => ',' :: (x ++ joinTail xs)

/-- JS `Array.prototype.join(',')` on already-rendered elements. -/
def joinComma : List (List Char) → List Char
  | [] => []
  | x :: xs => x ++ joinTail xs

/-- A JSON string literal for a key containing no character needing an
escape (the modelled domain of sensor names). -/
def quoteStr (s : String) : List Char :=
  '"' :: (s.data ++ ['"'])

/-- One `"key":value` item of `JSON.stringify` on a numeric record. -/
def jsonPairOne (p : String × Int) : List Char :=
  quoteStr p.1 ++ ':' :: intRepr p.2

/-- Model of `JSON.stringify` on a string-keyed numeric record: pairs are emitted
in insertion order (JS object key order), comma separated, in braces. -/
def jsonStringifyPairs (ps : List (String × Int)) : List Char :=
  '\x7b' :: (joinComma (ps.map jsonPairOne) ++ ['\x7d'])

/-- The slice of an NST state read by `generateStateActionKey` and the
engine: the numeric payload and the optional multimodal side-channels.
(`features`, `metadata` and the context strings are never read by the
fingerprint; the context strings only feed the opaque meta-learning
signal, which enters the update as an externally supplied value.) -/
structure SAState where
  numericalData : List Int
  imageEmbeddings : Option (List Int)
  audioEmbeddings : Option (List Int)
  sensorData : Option (List (String × Int))
deriving DecidableEq

/-- Character-level body of `generateStateActionKey` (nst-qismel-mm.d.ts
lines 491-505):
`key = s.numericalData.join(',') + '-' + a;` then, for each present
optional field, `key += '-' + field.join(',')` for the embeddings and
`key += '-' + JSON.stringify(s.sensorData)` for the sensor map.  An
absent field is `undefined` (falsy), a present one - even an empty array
or object - is truthy, matching the `Option` split. -/
def genKeyChars (s : SAState) (a : List Char) : List Char :=
  joinComma (s.numericalData.map intRepr) ++ '-' :: a
    ++ (match s.imageEmbeddings with
        | none => []
        | some e => '-' :: joinComma (e.map intRepr))
    ++ (match s.audioEmbeddings with
        | none => []
        | some e => '-' :: joinComma (e.map intRepr))
    ++ (match s.sensorData with
        | none => []
        | some sd => '-' :: jsonStringifyPairs sd)

/-- Embedding of `generateStateActionKey` from src/nst-qismel-mm.d.ts lines 491-505. -/
def generateStateActionKey (s : SAState) (a : String) : String :=
  String.mk (genKeyChars s a.data)

/-- JS `Map.get` on an insertion-ordered association list (the ValueTable
`qismeValues : Map<string, number>`): first matching key, else
`undefined` (`none`). -/
def mapGet : List (String × Rat) → String → Option Rat
  | [], _ => none
  | (k, v) :: rest, key => if key = k then some v else mapGet rest key

/-- JS `Map.set`: replaces the value of an existing key in place, else
appends a new entry, preserving insertion order. -/
def mapSet : List (String × Rat) → String → Rat → List (String × Rat)
  | [], key, v => [(key, v)]
  | (k, w) :: rest, key, v =>
      if k = key then (k, v) :: rest else (k, w) :: mapSet rest key v

/-- The mutable fields of `ActionSelectionModule`
(src/nst-QISMEL-mm/ActionSelectionModule.ts lines 20-39): the ValueTable
and the seven scalar weights. -/
structure ActionSelectionModule where
  qismeValues : List (String × Rat)
  learningRate : Rat
  discountFactor : Rat
  intrinsicWeight : Rat
  symbolicWeight : Rat
  metaLearningWeight : Rat
  evolutionaryWeight : Rat
  latentLearningWeight : Rat
deriving DecidableEq

/-- The constructor defaults (lines 30-39). -/
def initActionSelectionModule : ActionSelectionModule :=
  ⟨[], 1/10, 9/10, 1/10, 1/10, 1/10, 1/10, 1/10⟩

/-- The hard-coded action set of `chooseAction` (line 47). -/
def possibleActions : List String := ["move", "grab", "drop", "use"]

/-- The Q-value read of the loop body (line 52):
`qismeValues.get(generateStateActionKey(state, action)) || 0`. -/
def qValueOf (tbl : List (String × Rat)) (s : SAState) (act : String) : Rat :=
  (mapGet tbl (generateStateActionKey s act)).getD 0

/-- JS comparison `qValue > maxQValue` where `maxQValue` starts at
`-Infinity` (modelled by `none`): every real value exceeds `-Infinity`. -/
def qGtOpt (q : Rat) : Option Rat → Bool
  | none => true
  | some m => decide (m < q)

/-- The `for (const action of ...)` scan of `chooseAction`
(lines 48-57), threading `bestAction` and `maxQValue`. -/
def chooseGo (tbl : List (String × Rat)) (s : SAState) :
    List String → Option String → Option Rat → Option String
  | [], best, _ => best
  | act :: rest, best, mx =>
      let q := qValueOf tbl s act
      if qGtOpt q mx then chooseGo tbl s rest (some act) (some q)
      else chooseGo tbl s rest best mx

/-- The scan started the way `chooseAction` starts it:
`bestAction = list[0]` (JS indexing an empty array yields `undefined`)
and `maxQValue = -Infinity`. -/
def chooseFrom (tbl : List (String × Rat)) (s : SAState)
    (actions : List String) : Option String :=
  chooseGo tbl s actions actions.head? none

/-- Embedding of `chooseAction` (src/nst-QISMEL-mm/ActionSelectionModule.ts lines
46-60): greedy scan of the hard-coded action list. -/
def ActionSelectionModule.chooseAction (m : ActionSelectionModule)
    (s : SAState) : Option String :=
  chooseFrom m.qismeValues s possibleActions

/-- Left fold of `max`, the shape of a running maximum. -/
def foldMax : Rat → List Rat → Rat
  | x, [] => x
  | x, y :: ys => foldMax (max x y) ys

/-- Modelled from the spec: `getMaxNextQISMEL` is elided from
ActionSelectionModule.ts (line 92 keeps only a comment naming it).  Per
the spec's update rule it returns `max over the action set of
Q(nextState, a')`, absent keys defaulting to 0; the module's action set
is the fixed `possibleActions` list. -/
def getMaxNextQISMEL (m : ActionSelectionModule) (sPrime : SAState) : Rat :=
  match possibleActions.map (qValueOf m.qismeValues sPrime) with
  | [] => 0
  | x :: xs => foldMax x xs

/-- Embedding of `updateQISMEL` (lines 69-90).  The five signal providers are opaque
nondeterministic scalar generators (`Math.random()` placeholders); the
values they return on this call enter as the parameters `iR sR mL eO
lL`. -/
def ActionSelectionModule.updateQISMEL (m : ActionSelectionModule)
    (s : SAState) (a : String) (r : Rat) (sPrime : SAState)
    (iR sR mL eO lL : Rat) : ActionSelectionModule :=
  let key := generateStateActionKey s a
  let currentQISMEL := (mapGet m.qismeValues key).getD 0
  let maxNextQISMEL := getMaxNextQISMEL m sPrime
  let newQISMEL := currentQISMEL
    + m.learningRate * (r + m.discountFactor * maxNextQISMEL - currentQISMEL)
    + m.intrinsicWeight * iR
    + m.symbolicWeight * sR
    + m.metaLearningWeight * mL
    + m.evolutionaryWeight * eO
    + m.latentLearningWeight * lL
  { m with qismeValues := mapSet m.qismeValues key newQISMEL }

/-- The classical Q-learning update, written from the spec's words
(section 8): `Q' = Q + α·(r + γ·maxQ' − Q)`.  Reference definition for
the refinement claim. -/
def classicalQUpdate (q alpha gamma r maxQ : Rat) : Rat :=
  q + alpha * (r + gamma * maxQ - q)

/-- First-improvement scan: keep the earliest element whose value is not
strictly exceeded later (the functional core of the `chooseAction`
loop once the seed has been absorbed). -/
def pickBest (f : String → Rat) : String → List String → String
  | b, [] => b
  | b, x :: xs => if f b < f x then pickBest f x xs else pickBest f b xs

/-- JS `Map.get` as a state-threading step: it reads the table and
returns it unchanged (a `Map.get` never inserts). -/
def tableGetThreaded (tbl : List (String × Rat)) (k : String) :
    Option Rat × List (String × Rat) :=
  (mapGet tbl k, tbl)

/-- The `chooseAction` scan with the ValueTable threaded through every
read, to make the claim about its (absence of) table effects statable. -/
def chooseGoThreaded (s : SAState) :
    List (String × Rat) → List String → Option String → Option Rat →
      Option String × List (String × Rat)
  | tbl, [], best, _ => (best, tbl)
  | tbl, act :: rest, best, mx =>
      let res := tableGetThreaded tbl (generateStateActionKey s act)
      let q := res.1.getD 0
      if qGtOpt q mx then chooseGoThreaded s res.2 rest (some act) (some q)
      else chooseGoThreaded s res.2 rest best mx

/-- State-threaded `chooseAction`: returns the selected action together
with the ValueTable as it stands after the call. -/
def chooseActionThreaded (tbl : List (String × Rat)) (s : SAState) :
    Option String × List (String × Rat) :=
  chooseGoThreaded s tbl possibleActions possibleActions.head? none

/-- The accumulator pass of `coordinatesToIndex` (types.ts lines
159-161): `coordinates.reduce((acc, val, idx) => acc * this.shape[idx] +
val, 0)`.  The accumulator is `none` once the JS value is `NaN`: reading
`shape[idx]` past the end of `shape` yields `undefined`, and any
arithmetic on it yields `NaN`, which then propagates. -/
def c2iGo (acc : Option Int) : List Int → List Int → Option Int
  | _, [] => acc
  | s :: ss, c :: cs => c2iGo (acc.map fun a => a * s + c) ss cs
  | [], _ :: cs => c2iGo none [] cs

/-- Embedding of `coordinatesToIndex` for a tensor of the given shape: no arity or
range validation of any kind, exactly as in the source. -/
def coordinatesToIndex (shape coords : List Int) : Option Int :=
  c2iGo (some 0) shape coords

/-- The NST fields the modelled tensor operations read (data, shape,
datatype).  `features`, `metadata` and the multimodal side-channels are
carried by the source class but never read by `get`/`set`/`normalize`/
`concatenate`, so they are omitted here; the fingerprint side is
modelled by `SAState` above. -/
structure NST where
  data : List Rat
  shape : List Int
  datatype : String
deriving DecidableEq

/-- Embedding of `get` (types.ts lines 88-91): `this.data[index]`.  A `NaN` or
out-of-bounds or negative index reads `undefined` (`none`) from the
typed array; no exception is ever raised. -/
def NST.get (t : NST) (coords : List Int) : Option Rat :=
  match coordinatesToIndex t.shape coords with
  | none => none
  | some i => if 0 ≤ i then t.data[i.toNat]? else none

/-- Embedding of `set` (types.ts lines 98-101): `this.data[index] = value`.  A typed
array silently ignores writes at `NaN`, negative or out-of-bounds
indices; no exception is ever raised.  (`List.set` is likewise the
identity out of range.) -/
def NST.set (t : NST) (coords : List Int) (v : Rat) : NST :=
  match coordinatesToIndex t.shape coords with
  | none => t
  | some i => if 0 ≤ i then { t with data := t.data.set i.toNat v } else t

/-- Model of `Math.min(...data)`: `none` models the `Infinity` of an empty
spread; on a nonempty list, the least element. -/
def jsMin : List Rat → Option Rat
  | [] => none
  | x :: xs => some ((jsMin xs).elim x (min x))

/-- Model of `Math.max(...data)`, dually. -/
def jsMax : List Rat → Option Rat
  | [] => none
  | x :: xs => some ((jsMax xs).elim x (max x))

/-- The element map of `normalize` (nst-qismel-mm.d.ts lines 108-116):
`(value - min) / range`.  When `range = 0` every element equals `min`,
so every quotient is the JS float `0/0 = NaN`, modelled as `none`;
otherwise the exact rational quotient. -/
def normalizeData (l : List Rat) : List (Option Rat) :=
  match jsMin l, jsMax l with
  | some mn, some mx =>
      if mx - mn = 0 then l.map fun _ => (none : Option Rat)
      else l.map fun v => some ((v - mn) / (mx - mn))
  | _, _ => []

/-- The tensor returned by `normalize`: mapped data (possibly holding
NaN), same shape, same datatype.  The float datatypes store NaN as is,
which is the case the normalize claim is about. -/
structure NSTWithNaN where
  data : List (Option Rat)
  shape : List Int
  datatype : String
deriving DecidableEq

/-- Embedding of `normalize` (nst-qismel-mm.d.ts lines 108-116): no guard of any kind
on `range = max - min`. -/
def NST.normalize (t : NST) : NSTWithNaN :=
  ⟨normalizeData t.data, t.shape, t.datatype⟩

/-- Embedding of `concatenate` (nst-qismel-mm.d.ts lines 151-166).  The only check is
`axis < 0 || axis >= shape.length`; no dimension of `other` is ever
compared.  The result shape copies `this.shape` and adds
`other.shape[axis]` at `axis`; the data is `this.data` followed by
`other.data` (the source comments "assuming axis = 0").  The modelled
domain has `axis < other.shape.length` as well (otherwise JS would store
`NaN` in the shape); every claim stays inside it.  Both inputs are left
untouched: a fresh tensor is returned. -/
def NST.concatenate (t : NST) (u : NST) (axis : Int) :
    Except String NST :=
  if axis < 0 ∨ (t.shape.length : Int) ≤ axis then
    Except.error "Invalid axis for concatenation"
  else
    Except.ok
      ⟨t.data ++ u.data,
       t.shape.set axis.toNat
         (t.shape.getD axis.toNat 0 + u.shape.getD axis.toNat 0),
       t.datatype⟩

/-- Arity and range check used to state validity of a coordinate tuple:
same length as the shape and every component in `[0, shape[i])`.  (The
source performs no such check; this predicate only states claims.) -/
def validB : List Int → List Int → Bool
  | [], [] => true
  | s :: ss, c :: cs => decide (0 ≤ c) && decide (c < s) && validB ss cs
  | _, _ => false

lemma digitChar_ne_punct : ∀ m < 10, digitChar m ≠ ',' ∧ digitChar m ≠ '-' := by
  decide

lemma digitChar_inj10 : ∀ m < 10, ∀ n < 10, digitChar m = digitChar n → m = n := by
  decide

lemma natToDigitsRev_eval : ∀ f n, n ≤ f → evalDigits (natToDigitsRev f n) = n := by
  intro f
  induction f with
  | zero =>
      intro n hn
      interval_cases n
      simp [natToDigitsRev, evalDigits]
  | succ f ih =>
      intro n hn
      cases n with
      | zero => simp [natToDigitsRev, evalDigits]
      | succ k =>
          have hdiv : (k + 1) / 10 < k + 1 := Nat.div_lt_self (by omega) (by omega)
          have hle : (k + 1) / 10 ≤ f := by omega
          simp only [natToDigitsRev, evalDigits]
          rw [ih _ hle]
          exact Nat.mod_add_div (k + 1) 10

lemma natToDigitsRev_lt10 : ∀ f n d, d ∈ natToDigitsRev f n → d < 10 := by
  intro f
  induction f with
  | zero => intro n d hd; simp [natToDigitsRev] at hd
  | succ f ih =>
      intro n d hd
      cases n with
      | zero => simp [natToDigitsRev] at hd
      | succ k =>
          simp only [natToDigitsRev, List.mem_cons] at hd
          rcases hd with hd | hd
          · subst hd; exact Nat.mod_lt _ (by omega)
          · exact ih _ _ hd

lemma natToDigitsRev_self_ne_nil (n : Nat) (hn : n ≠ 0) :
    natToDigitsRev n n ≠ [] := by
  cases n with
  | zero => exact absurd rfl hn
  | succ k => simp [natToDigitsRev]

lemma natRepr_ne_nil (n : Nat) : natRepr n ≠ [] := by
  unfold natRepr
  split
  · simp
  · next hn =>
      intro h
      rw [List.reverse_eq_nil_iff, List.map_eq_nil_iff] at h
      exact natToDigitsRev_self_ne_nil n hn h

lemma natRepr_mem (n : Nat) : ∀ c ∈ natRepr n, c ≠ ',' ∧ c ≠ '-' := by
  intro c hc
  unfold natRepr at hc
  split at hc
  · simp at hc
    subst hc
    constructor <;> decide
  · rw [List.mem_reverse, List.mem_map] at hc
    obtain ⟨d, hd, hdc⟩ := hc
    subst hdc
    exact digitChar_ne_punct d (natToDigitsRev_lt10 _ _ _ hd)

lemma mapDigitChar_inj :
    ∀ l1 l2 : List Nat, (∀ d ∈ l1, d < 10) → (∀ d ∈ l2, d < 10) →
      l1.map digitChar = l2.map digitChar → l1 = l2 := by
  intro l1
  induction l1 with
  | nil =>
      intro l2 _ _ h
      cases l2 with
      | nil => rfl
      | cons b bs => simp at h
  | cons a as ih =>
      intro l2 h1 h2 h
      cases l2 with
      | nil => simp at h
      | cons b bs =>
          simp only [List.map_cons, List.cons.injEq] at h
          obtain ⟨hab, htail⟩ := h
          have ha := h1 a (by simp)
          have hb := h2 b (by simp)
          have := digitChar_inj10 a ha b hb hab
          subst this
          rw [ih bs (fun d hd => h1 d (by simp [hd]))
            (fun d hd => h2 d (by simp [hd])) htail]

lemma natRepr_inj : ∀ m n : Nat, natRepr m = natRepr n → m = n := by
  have key : ∀ m n : Nat, m = 0 → n ≠ 0 → natRepr m ≠ natRepr n := by
    intro m n hm hn h
    subst hm
    unfold natRepr at h
    rw [if_pos rfl, if_neg hn] at h
    have hmap : (natToDigitsRev n n).map digitChar = ['0'] := by
      rw [← List.reverse_reverse ((natToDigitsRev n n).map digitChar), ← h]
      rfl
    have : natToDigitsRev n n = [0] := by
      cases hl : natToDigitsRev n n with
      | nil => rw [hl] at hmap; simp at hmap
      | cons d ds =>
          rw [hl] at hmap
          simp only [List.map_cons, List.cons.injEq] at hmap
          obtain ⟨hd0, hds⟩ := hmap
          rw [List.map_eq_nil_iff] at hds
          subst hds
          have hd10 : d < 10 := natToDigitsRev_lt10 n n d (by rw [hl]; simp)
          have : d = 0 := digitChar_inj10 d hd10 0 (by omega) hd0
          rw [this]
    have := natToDigitsRev_eval n n le_rfl
    rw [this.symm, ‹natToDigitsRev n n = [0]›] at hn
    simp [evalDigits] at hn
  intro m n h
  by_cases hm : m = 0 <;> by_cases hn : n = 0
  · omega
  · exact absurd h (key m n hm hn)
  · exact absurd h.symm (key n m hn hm)
  · unfold natRepr at h
    rw [if_neg hm, if_neg hn, List.reverse_inj] at h
    have := mapDigitChar_inj _ _ (fun d hd => natToDigitsRev_lt10 _ _ _ hd)
      (fun d hd => natToDigitsRev_lt10 _ _ _ hd) h
    have em := natToDigitsRev_eval m m le_rfl
    have en := natToDigitsRev_eval n n le_rfl
    rw [← em, ← en, this]

lemma intRepr_comma_free (i : Int) : ∀ c ∈ intRepr i, c ≠ ',' := by
  intro c hc
  unfold intRepr at hc
  split at hc
  · rcases List.mem_cons.mp hc with hc | hc
    · subst hc; decide
    · exact (natRepr_mem _ c hc).1
  · exact (natRepr_mem _ c hc).1

lemma intRepr_ne_nil (i : Int) : intRepr i ≠ [] := by
  unfold intRepr
  split
  · simp
  · exact natRepr_ne_nil _

lemma intRepr_inj : Function.Injective intRepr := by
  intro i j h
  unfold intRepr at h
  split_ifs at h with hi hj hj
  · rw [List.cons.injEq] at h
    have := natRepr_inj _ _ h.2
    omega
  · have : '-' ∈ natRepr j.toNat := h ▸ List.mem_cons_self '-' _
    exact absurd rfl (natRepr_mem _ '-' this).2
  · have : '-' ∈ natRepr i.toNat := h.symm ▸ List.mem_cons_self '-' _
    exact absurd rfl (natRepr_mem _ '-' this).2
  · have := natRepr_inj _ _ h
    omega

lemma joinTail_commaLed (xs : List (List Char)) :
    joinTail xs = [] ∨ ∃ t, joinTail xs = ',' :: t := by
  cases xs <;> simp [joinTail]

lemma append_eq_of_commaFree :
    ∀ (x y r1 r2 : List Char), (∀ c ∈ x, c ≠ ',') → (∀ c ∈ y, c ≠ ',') →
      (r1 = [] ∨ ∃ t, r1 = ',' :: t) → (r2 = [] ∨ ∃ t, r2 = ',' :: t) →
      x ++ r1 = y ++ r2 → x = y ∧ r1 = r2 := by
  intro x
  induction x with
  | nil =>
      intro y r1 r2 _ hy h1 _ heq
      cases y with
      | nil => simpa using heq
      | cons b ys =>
          exfalso
          rcases h1 with h1 | ⟨t, ht⟩
          · subst h1; simp at heq
          · subst ht
            simp only [List.nil_append, List.cons_append, List.cons.injEq] at heq
            exact hy b (by simp) heq.1.symm
  | cons a xs ih =>
      intro y r1 r2 hx hy h1 h2 heq
      cases y with
      | nil =>
          exfalso
          rcases h2 with h2 | ⟨t, ht⟩
          · subst h2; simp at heq
          · subst ht
            simp only [List.nil_append, List.cons_append, List.cons.injEq] at heq
            exact hx a (by simp) heq.1
      | cons b ys =>
          simp only [List.cons_append, List.cons.injEq] at heq
          obtain ⟨hab, htail⟩ := heq
          obtain ⟨hxy, hr⟩ := ih ys r1 r2 (fun c hc => hx c (by simp [hc]))
            (fun c hc => hy c (by simp [hc])) h1 h2 htail
          exact ⟨by rw [hab, hxy], hr⟩

lemma joinComma_inj :
    ∀ l1 l2 : List (List Char),
      (∀ s ∈ l1, s ≠ [] ∧ ∀ c ∈ s, c ≠ ',') →
      (∀ s ∈ l2, s ≠ [] ∧ ∀ c ∈ s, c ≠ ',') →
      joinComma l1 = joinComma l2 → l1 = l2 := by
  intro l1
  induction l1 with
  | nil =>
      intro l2 _ h2 h
      cases l2 with
      | nil => rfl
      | cons y ys =>
          exfalso
          simp only [joinComma] at h
          have := (List.append_eq_nil.mp h.symm).1
          exact (h2 y (by simp)).1 this
  | cons x xs ih =>
      intro l2 h1 h2 h
      cases l2 with
      | nil =>
          exfalso
          simp only [joinComma] at h
          have := (List.append_eq_nil.mp h).1
          exact (h1 x (by simp)).1 this
      | cons y ys =>
          simp only [joinComma] at h
          obtain ⟨hxy, htails⟩ := append_eq_of_commaFree x y _ _
            ((h1 x (by simp)).2) ((h2 y (by simp)).2)
            (joinTail_commaLed xs) (joinTail_commaLed ys) h
          have hxs : xs = ys := by
            cases xs with
            | nil =>
                cases ys with
                | nil => rfl
                | cons c cs => simp [joinTail] at htails
            | cons c cs =>
                cases ys with
                | nil => simp [joinTail] at htails
                | cons d ds =>
                    simp only [joinTail, List.cons.injEq, true_and] at htails
                    exact ih (d :: ds) (fun s hs => h1 s (by simp [hs]))
                      (fun s hs => h2 s (by simp [hs])) htails
          rw [hxy, hxs]

lemma mapGet_mapSet (tbl : List (String × Rat)) (k : String) (v : Rat) :
    ∀ key, mapGet (mapSet tbl k v) key = if key = k then some v else mapGet tbl key := by
  induction tbl with
  | nil =>
      intro key
      simp only [mapSet, mapGet]
  | cons p rest ih =>
      intro key
      obtain ⟨pk, pv⟩ := p
      simp only [mapSet]
      by_cases hpk : pk = k
      · subst hpk
        by_cases hkey : key = pk <;> simp [mapGet, hkey]
      · by_cases hkey : key = pk
        · have hne : ¬ key = k := fun hk => hpk (hkey.symm.trans hk)
          simp [mapGet, hne, hkey, hpk]
        · simp [mapGet, hkey, ih, hpk]

lemma foldMax_init_le : ∀ (l : List Rat) (x : Rat), x ≤ foldMax x l := by
  intro l
  induction l with
  | nil => intro x; simp [foldMax]
  | cons y ys ih =>
      intro x
      calc x ≤ max x y := le_max_left x y
        _ ≤ foldMax (max x y) ys := ih (max x y)
        _ = foldMax x (y :: ys) := rfl

lemma foldMax_mem_or : ∀ (l : List Rat) (x : Rat),
    foldMax x l = x ∨ foldMax x l ∈ l := by
  intro l
  induction l with
  | nil => intro x; left; rfl
  | cons y ys ih =>
      intro x
      rcases ih (max x y) with h | h
      · rcases max_choice x y with hm | hm
        · left; simp only [foldMax]; rw [h, hm]
        · right; simp only [foldMax]; rw [h, hm]; simp
      · right
        simp only [foldMax]
        exact List.mem_cons_of_mem y h

lemma mem_le_foldMax : ∀ (l : List Rat) (x z : Rat), z ∈ l → z ≤ foldMax x l := by
  intro l
  induction l with
  | nil => intro x z hz; simp at hz
  | cons y ys ih =>
      intro x z hz
      rcases List.mem_cons.mp hz with hz | hz
      · subst hz
        calc z ≤ max x z := le_max_right x z
          _ ≤ foldMax (max x z) ys := foldMax_init_le ys _
          _ = foldMax x (z :: ys) := rfl
      · exact ih (max x y) z hz

lemma chooseGo_eq_pickBest (tbl : List (String × Rat)) (s : SAState) :
    ∀ (l : List String) (b : String),
      chooseGo tbl s l (some b) (some (qValueOf tbl s b)) =
        some (pickBest (qValueOf tbl s) b l) := by
  intro l
  induction l with
  | nil => intro b; rfl
  | cons x xs ih =>
      intro b
      simp only [chooseGo, pickBest, qGtOpt]
      by_cases h : qValueOf tbl s b < qValueOf tbl s x
      · rw [if_pos (by simpa using h), if_pos h]
        exact ih x
      · rw [if_neg (by simpa using h), if_neg h]
        exact ih b

lemma chooseFrom_cons (tbl : List (String × Rat)) (s : SAState)
    (a : String) (l : List String) :
    chooseFrom tbl s (a :: l) = some (pickBest (qValueOf tbl s) a l) := by
  simp only [chooseFrom, List.head?, chooseGo, qGtOpt, if_pos]
  exact chooseGo_eq_pickBest tbl s l a


lemma pickBest_split (f : String → Rat) :
    ∀ (l : List String) (b : String),
      ∃ l1 l2, b :: l = l1 ++ pickBest f b l :: l2 ∧
        (∀ x ∈ l1, f x < f (pickBest f b l)) ∧
        (∀ x ∈ l2, f x ≤ f (pickBest f b l)) := by
  intro l
  induction l with
  | nil =>
      intro b
      exact ⟨[], [], rfl, by simp, by simp⟩
  | cons x xs ih =>
      intro b
      by_cases h : f b < f x
      · obtain ⟨l1, l2, heq, h1, h2⟩ := ih x
        have hpick : pickBest f b (x :: xs) = pickBest f x xs := by
          simp [pickBest, h]
        rw [hpick]
        refine ⟨b :: l1, l2, ?_, ?_, h2⟩
        · simpa using congrArg (b :: ·) heq
        · intro z hz
          rcases List.mem_cons.mp hz with hz | hz
          · subst hz
            cases l1 with
            | nil =>
                have hx : x = pickBest f x xs := by
                  simpa using congrArg (fun t => t.head?) heq
                rw [← hx]
                exact h
            | cons c cs =>
                have hcx : x = c := by
                  simpa using congrArg (fun t => t.head?) heq
                subst hcx
                exact lt_trans h (h1 x (by simp))
          · exact h1 z hz
      · obtain ⟨l1, l2, heq, h1, h2⟩ := ih b
        have hpick : pickBest f b (x :: xs) = pickBest f b xs := by
          simp [pickBest, h]
        rw [hpick]
        cases l1 with
        | nil =>
            have hhead : b = pickBest f b xs := by
              simpa using congrArg (fun t => t.head?) heq
            have htail : xs = l2 := by
              have h' := heq
              simp only [List.nil_append, List.cons.injEq] at h'
              exact h'.2
            refine ⟨[], x :: xs, ?_, by simp, ?_⟩
            · simp [← hhead]
            · intro z hz
              rw [← hhead]
              rcases List.mem_cons.mp hz with hz | hz
              · subst hz; exact not_lt.mp h
              · have := h2 z (htail ▸ hz)
                rwa [← hhead] at this
        | cons c cs =>
            have hcb : b = c := by
              simpa using congrArg (fun t => t.head?) heq
            subst hcb
            have htail : xs = cs ++ pickBest f b xs :: l2 := by
              have h' := heq
              simp only [List.cons_append, List.cons.injEq, true_and] at h'
              exact h'
            have hbp : f b < f (pickBest f b xs) := h1 b (by simp)
            refine ⟨b :: x :: cs, l2, ?_, ?_, h2⟩
            · rw [List.cons_append, List.cons_append, ← htail]
            · intro z hz
              rcases List.mem_cons.mp hz with hz | hz
              · subst hz; exact hbp
              · rcases List.mem_cons.mp hz with hz | hz
                · subst hz
                  exact lt_of_le_of_lt (not_lt.mp h) hbp
                · exact h1 z (by simp [hz])

lemma chooseGoThreaded_table : ∀ (l : List String) (s : SAState)
    (tbl : List (String × Rat)) (best : Option String) (mx : Option Rat),
    (chooseGoThreaded s tbl l best mx).2 = tbl := by
  intro l
  induction l with
  | nil => intro s tbl best mx; rfl
  | cons a rest ih =>
      intro s tbl best mx
      simp only [chooseGoThreaded, tableGetThreaded]
      split
      · exact ih s tbl _ _
      · exact ih s tbl _ _

lemma c2iGo_bound :
    ∀ (ss cs : List Int), validB ss cs = true → ∀ a : Int,
      ∃ r, c2iGo (some a) ss cs = some (a * ss.prod + r) ∧ 0 ≤ r ∧ r < ss.prod := by
  intro ss
  induction ss with
  | nil =>
      intro cs hv a
      cases cs with
      | nil =>
          refine ⟨0, ?_, le_refl 0, by norm_num⟩
          simp [c2iGo]
      | cons c cs => simp [validB] at hv
  | cons s ss ih =>
      intro cs hv a
      cases cs with
      | nil => simp [validB] at hv
      | cons c cs =>
          simp only [validB, Bool.and_eq_true, decide_eq_true_eq] at hv
          obtain ⟨⟨hc0, hcs⟩, hrec⟩ := hv
          obtain ⟨r', heq, hr0, hrlt⟩ := ih cs hrec (a * s + c)
          have hP : (0 : Int) < ss.prod := lt_of_le_of_lt hr0 hrlt
          refine ⟨c * ss.prod + r', ?_, ?_, ?_⟩
          · show c2iGo ((some a).map fun x => x * s + c) ss cs = _
            simp only [Option.map_some']
            rw [heq, List.prod_cons]
            congr 1
            ring
          · positivity
          · rw [List.prod_cons]
            nlinarith [mul_le_mul_of_nonneg_right
              (by omega : c ≤ s - 1) hP.le]

lemma c2iGo_inj :
    ∀ (ss cs1 cs2 : List Int) (a : Int), validB ss cs1 = true →
      validB ss cs2 = true →
      c2iGo (some a) ss cs1 = c2iGo (some a) ss cs2 → cs1 = cs2 := by
  intro ss
  induction ss with
  | nil =>
      intro cs1 cs2 a hv1 hv2 _
      cases cs1 with
      | nil =>
          cases cs2 with
          | nil => rfl
          | cons c cs => simp [validB] at hv2
      | cons c cs => simp [validB] at hv1
  | cons s ss ih =>
      intro cs1 cs2 a hv1 hv2 h
      cases cs1 with
      | nil => simp [validB] at hv1
      | cons c1 t1 =>
          cases cs2 with
          | nil => simp [validB] at hv2
          | cons c2 t2 =>
              simp only [validB, Bool.and_eq_true, decide_eq_true_eq] at hv1 hv2
              obtain ⟨⟨h10, h1s⟩, h1r⟩ := hv1
              obtain ⟨⟨h20, h2s⟩, h2r⟩ := hv2
              have h' : c2iGo (some (a * s + c1)) ss t1 =
                  c2iGo (some (a * s + c2)) ss t2 := by
                simpa [c2iGo] using h
              obtain ⟨r1, e1, hr10, hr1P⟩ := c2iGo_bound ss t1 h1r (a * s + c1)
              obtain ⟨r2, e2, hr20, hr2P⟩ := c2iGo_bound ss t2 h2r (a * s + c2)
              have hP : (0 : Int) < ss.prod := lt_of_le_of_lt hr10 hr1P
              have hint : (a * s + c1) * ss.prod + r1 =
                  (a * s + c2) * ss.prod + r2 := by
                have := h'
                rw [e1, e2] at this
                exact Option.some.injEq _ _ ▸ (by simpa using this)
              have hcc : c1 = c2 := by
                rcases lt_trichotomy c1 c2 with hlt | heq | hgt
                · exfalso
                  nlinarith [mul_nonneg (by omega : (0:Int) ≤ c2 - c1 - 1) hP.le]
                · exact heq
                · exfalso
                  nlinarith [mul_nonneg (by omega : (0:Int) ≤ c1 - c2 - 1) hP.le]
              subst hcc
              have ht : t1 = t2 := ih t1 t2 (a * s + c1) h1r h2r h'
              rw [ht]

lemma jsMin_const (c : Rat) :
    ∀ l : List Rat, l ≠ [] → (∀ x ∈ l, x = c) → jsMin l = some c := by
  intro l
  induction l with
  | nil => intro h; exact absurd rfl h
  | cons x xs ih =>
      intro _ hall
      have hx : x = c := hall x (by simp)
      cases xs with
      | nil => simp [jsMin, hx]
      | cons y ys =>
          have hxs : jsMin (y :: ys) = some c :=
            ih (by simp) (fun z hz => hall z (by simp [hz]))
          simp [jsMin] at hxs ⊢
          rw [hxs]
          simp [hx]

lemma jsMax_const (c : Rat) :
    ∀ l : List Rat, l ≠ [] → (∀ x ∈ l, x = c) → jsMax l = some c := by
  intro l
  induction l with
  | nil => intro h; exact absurd rfl h
  | cons x xs ih =>
      intro _ hall
      have hx : x = c := hall x (by simp)
      cases xs with
      | nil => simp [jsMax, hx]
      | cons y ys =>
          have hxs : jsMax (y :: ys) = some c :=
            ih (by simp) (fun z hz => hall z (by simp [hz]))
          simp [jsMax] at hxs ⊢
          rw [hxs]
          simp [hx]

/-- Claim C1: for every state `s`, action `a`, reward `r` and next state
`sPrime`, `updateQISMEL` computes `newValue = current + α·(r + γ·maxNext
− current) + β·intrinsic + δ·symbolic + ε·metaLearning + ζ·evolutionary
+ η·latent`, where `current` is the ValueTable entry for
`fingerprint(s, a)` (0 if the key is absent) and `maxNext` is the
maximum value over next-state actions, and this `newValue` replaces the
entry for `fingerprint(s, a)` (every other key keeps its value). -/
theorem updateQISMEL_replaces_entry (m : ActionSelectionModule) (s : SAState)
    (a : String) (r : Rat) (sPrime : SAState) (iR sR mL eO lL : Rat)
    (k : String) :
    (mapGet (m.updateQISMEL s a r sPrime iR sR mL eO lL).qismeValues k =
      if k = generateStateActionKey s a then
        some ((mapGet m.qismeValues (generateStateActionKey s a)).getD 0
          + m.learningRate * (r + m.discountFactor * getMaxNextQISMEL m sPrime
              - (mapGet m.qismeValues (generateStateActionKey s a)).getD 0)
          + m.intrinsicWeight * iR + m.symbolicWeight * sR
          + m.metaLearningWeight * mL + m.evolutionaryWeight * eO
          + m.latentLearningWeight * lL)
      else mapGet m.qismeValues k)
    ∧ (∀ b ∈ possibleActions,
        qValueOf m.qismeValues sPrime b ≤ getMaxNextQISMEL m sPrime)
    ∧ ∃ b ∈ possibleActions,
        getMaxNextQISMEL m sPrime = qValueOf m.qismeValues sPrime b := by
  have hmax : getMaxNextQISMEL m sPrime =
      foldMax (qValueOf m.qismeValues sPrime "move")
        [qValueOf m.qismeValues sPrime "grab",
         qValueOf m.qismeValues sPrime "drop",
         qValueOf m.qismeValues sPrime "use"] := rfl
  refine ⟨?_, ?_, ?_⟩
  · simp only [ActionSelectionModule.updateQISMEL]
    exact mapGet_mapSet _ _ _ k
  · intro b hb
    rw [hmax]
    simp only [possibleActions, List.mem_cons, List.not_mem_nil, or_false] at hb
    rcases hb with rfl | rfl | rfl | rfl
    · exact foldMax_init_le _ _
    · exact mem_le_foldMax _ _ _ (by simp)
    · exact mem_le_foldMax _ _ _ (by simp)
    · exact mem_le_foldMax _ _ _ (by simp)
  · rw [hmax]
    rcases foldMax_mem_or
      [qValueOf m.qismeValues sPrime "grab",
       qValueOf m.qismeValues sPrime "drop",
       qValueOf m.qismeValues sPrime "use"]
      (qValueOf m.qismeValues sPrime "move") with h | h
    · exact ⟨"move", by simp [possibleActions], h⟩
    · simp only [List.mem_cons, List.not_mem_nil, or_false] at h
      rcases h with h | h | h
      · exact ⟨"grab", by simp [possibleActions], h⟩
      · exact ⟨"drop", by simp [possibleActions], h⟩
      · exact ⟨"use", by simp [possibleActions], h⟩

/-- Claim C10: `chooseAction` leaves the ValueTable exactly unchanged:
its only table operation is `Map.get`, which reads (absent fingerprints
defaulting to 0) without inserting, so the table after the call equals
the table before, key for key and value for value. -/
theorem chooseAction_leaves_table_unchanged (tbl : List (String × Rat))
    (s : SAState) :
    (chooseActionThreaded tbl s).2 = tbl ∧
      ∀ k, mapGet (chooseActionThreaded tbl s).2 k = mapGet tbl k := by
  have h := chooseGoThreaded_table possibleActions s tbl
    possibleActions.head? none
  exact ⟨h, fun k => by rw [show (chooseActionThreaded tbl s).2 = tbl from h]⟩

/-- Claim C3: for every table, state and non-empty action list, the
`chooseAction` scan returns the action whose ValueTable entry (default 0
for absent keys) is maximal, and among actions of equal maximal value
the one at the earliest position; in particular, with an empty
ValueTable it returns `move`, the first of the hard-coded actions. -/
theorem chooseAction_earliest_max :
    (∀ (tbl : List (String × Rat)) (s : SAState) (actions : List String),
        actions ≠ [] →
        ∃ a l1 l2, chooseFrom tbl s actions = some a ∧
          actions = l1 ++ a :: l2 ∧
          (∀ x ∈ l1, qValueOf tbl s x < qValueOf tbl s a) ∧
          (∀ x ∈ l2, qValueOf tbl s x ≤ qValueOf tbl s a))
    ∧ ∀ (m : ActionSelectionModule) (s : SAState), m.qismeValues = [] →
        m.chooseAction s = some "move" := by
  constructor
  · intro tbl s actions hne
    obtain ⟨b, l, rfl⟩ := List.exists_cons_of_ne_nil hne
    obtain ⟨l1, l2, heq, h1, h2⟩ := pickBest_split (qValueOf tbl s) l b
    exact ⟨pickBest (qValueOf tbl s) b l, l1, l2,
      chooseFrom_cons tbl s b l, heq, h1, h2⟩
  · intro m s hempty
    rw [ActionSelectionModule.chooseAction, hempty,
      show possibleActions = "move" :: ["grab", "drop", "use"] from rfl,
      chooseFrom_cons]
    have hf : ∀ act, qValueOf ([] : List (String × Rat)) s act = 0 :=
      fun _ => rfl
    simp [pickBest, hf]

theorem chooseAction_earliest_max_witness :
    (∃ a l1 l2,
        chooseFrom [] ⟨[2], none, none, none⟩ possibleActions = some a ∧
          possibleActions = l1 ++ a :: l2 ∧
          (∀ x ∈ l1, qValueOf [] ⟨[2], none, none, none⟩ x <
            qValueOf [] ⟨[2], none, none, none⟩ a) ∧
          (∀ x ∈ l2, qValueOf [] ⟨[2], none, none, none⟩ x ≤
            qValueOf [] ⟨[2], none, none, none⟩ a))
    ∧ initActionSelectionModule.chooseAction ⟨[2], none, none, none⟩ =
        some "move" :=
  ⟨chooseAction_earliest_max.1 [] ⟨[2], none, none, none⟩ possibleActions
      (by decide),
   chooseAction_earliest_max.2 initActionSelectionModule
      ⟨[2], none, none, none⟩ rfl⟩

/-- Claim C7, counterexample: the source `chooseAction` cannot even be
called with an action set - its list is hard-coded and non-empty - and
the scan it runs, applied to an empty list, returns `undefined`
(`none`, from `possibleActions[0]` on an empty array) instead of
failing: no `ConfigError` exists anywhere in the code. -/
theorem chooseFrom_empty_no_configError_cx :
    possibleActions ≠ [] ∧
      chooseFrom [] ⟨[1], none, none, none⟩ [] = none := by
  constructor
  · decide
  · rfl

/-- Claim C7, amended: `chooseAction` takes no action-set parameter and
never fails; its scan over an empty action list yields no action
(`undefined`) rather than raising `ConfigError`. -/
theorem chooseFrom_empty_returns_undefined
    (tbl : List (String × Rat)) (s : SAState) :
    chooseFrom tbl s [] = none := rfl

/-- Claim C2, counterexample: the sensor map is serialized by
`JSON.stringify` in insertion order, not in key-sorted order, so two
states whose sensor maps hold the same bindings in different insertion
orders get different keys; moreover the `-`-separated fields are
ambiguous, so a state with an image embedding and action `2` collides
with an embedding-free state and action `2-3`. -/
theorem generateStateActionKey_not_canonical_cx :
    (generateStateActionKey ⟨[1], none, none, some [("a", 1), ("b", 2)]⟩ "x"
        ≠ generateStateActionKey ⟨[1], none, none, some [("b", 2), ("a", 1)]⟩ "x")
    ∧ List.Perm [("a", (1 : Int)), ("b", 2)] [("b", 2), ("a", 1)]
    ∧ generateStateActionKey ⟨[1], some [3], none, none⟩ "2"
        = generateStateActionKey ⟨[1], none, none, none⟩ "2-3"
    ∧ (⟨[1], some [3], none, none⟩ : SAState) ≠ ⟨[1], none, none, none⟩ := by
  refine ⟨by decide, by decide, by decide, by decide⟩

/-- Claim C2, amended: the fingerprint is deterministic, and any change
to the numeric payload - holding the action and the optional fields
fixed - changes the key; but the sensor map is serialized in insertion
order (so permuting insertion changes the key of a structurally equal
map) and the separator scheme is ambiguous across fields (so distinct
(state, action) pairs can collide). -/
theorem generateStateActionKey_payload_sensitive
    (nd1 nd2 : List Int) (img aud : Option (List Int))
    (sd : Option (List (String × Int))) (a : String)
    (hne : nd1 ≠ nd2) :
    generateStateActionKey ⟨nd1, img, aud, sd⟩ a ≠
      generateStateActionKey ⟨nd2, img, aud, sd⟩ a := by
  intro h
  apply hne
  have hchars : genKeyChars ⟨nd1, img, aud, sd⟩ a.data =
      genKeyChars ⟨nd2, img, aud, sd⟩ a.data := congrArg String.data h
  simp only [genKeyChars, List.append_assoc] at hchars
  rw [List.append_left_inj] at hchars
  have hmap : nd1.map intRepr = nd2.map intRepr := by
    refine joinComma_inj _ _ ?_ ?_ hchars
    · intro t ht
      obtain ⟨i, _, rfl⟩ := List.mem_map.mp ht
      exact ⟨intRepr_ne_nil i, intRepr_comma_free i⟩
    · intro t ht
      obtain ⟨i, _, rfl⟩ := List.mem_map.mp ht
      exact ⟨intRepr_ne_nil i, intRepr_comma_free i⟩
  exact List.map_injective_iff.mpr intRepr_inj hmap

theorem generateStateActionKey_payload_sensitive_witness :
    generateStateActionKey ⟨[1], none, none, none⟩ "x" ≠
      generateStateActionKey ⟨[2], none, none, none⟩ "x" :=
  generateStateActionKey_payload_sensitive [1] [2] none none none "x"
    (by decide)

/-- Claim C8: when every auxiliary weight (β, δ, ε, ζ, η) is zero,
`updateQISMEL` is extensionally equal to the classical Q-learning update
`Q' = Q + α·(r + γ·maxQ' − Q)` for all inputs, including arbitrary
values returned by the signal providers. -/
theorem update_reduces_to_classical (m : ActionSelectionModule)
    (s : SAState) (a : String) (r : Rat) (sPrime : SAState)
    (iR sR mL eO lL : Rat)
    (hb : m.intrinsicWeight = 0) (hd : m.symbolicWeight = 0)
    (he : m.metaLearningWeight = 0) (hz : m.evolutionaryWeight = 0)
    (hh : m.latentLearningWeight = 0) :
    (m.updateQISMEL s a r sPrime iR sR mL eO lL).qismeValues =
      mapSet m.qismeValues (generateStateActionKey s a)
        (classicalQUpdate
          ((mapGet m.qismeValues (generateStateActionKey s a)).getD 0)
          m.learningRate m.discountFactor r (getMaxNextQISMEL m sPrime)) := by
  simp only [ActionSelectionModule.updateQISMEL, hb, hd, he, hz, hh,
    classicalQUpdate, zero_mul, add_zero]

theorem update_reduces_to_classical_witness :
    (ActionSelectionModule.updateQISMEL ⟨[], 1/10, 9/10, 0, 0, 0, 0, 0⟩
        ⟨[1], none, none, none⟩ "a" 1 ⟨[1], none, none, none⟩
        5 7 11 13 17).qismeValues =
      mapSet [] (generateStateActionKey ⟨[1], none, none, none⟩ "a")
        (classicalQUpdate
          ((mapGet [] (generateStateActionKey ⟨[1], none, none, none⟩ "a")).getD 0)
          (1/10) (9/10) 1
          (getMaxNextQISMEL ⟨[], 1/10, 9/10, 0, 0, 0, 0, 0⟩
            ⟨[1], none, none, none⟩)) ∧
      mapGet (ActionSelectionModule.updateQISMEL ⟨[], 1/10, 9/10, 0, 0, 0, 0, 0⟩
          ⟨[1], none, none, none⟩ "a" 1 ⟨[1], none, none, none⟩
          5 7 11 13 17).qismeValues
        (generateStateActionKey ⟨[1], none, none, none⟩ "a") = some (1/10) := by
  have h := update_reduces_to_classical ⟨[], 1/10, 9/10, 0, 0, 0, 0, 0⟩
    ⟨[1], none, none, none⟩ "a" 1 ⟨[1], none, none, none⟩ 5 7 11 13 17
    rfl rfl rfl rfl rfl
  refine ⟨h, ?_⟩
  rw [h]
  norm_num [mapGet, mapSet, classicalQUpdate, getMaxNextQISMEL, qValueOf,
    possibleActions, foldMax]

/-- Claim C5, counterexample: `normalize` on a constant (float) tensor
returns neither a `DegenerateRangeError` failure nor an all-zero
result: every element is the JS float `0/0 = NaN` (modelled `none`). -/
theorem normalize_constant_nan_cx :
    (NST.normalize ⟨[5, 5], [2], "float32"⟩).data = [none, none] ∧
      (NST.normalize ⟨[5, 5], [2], "float32"⟩).data ≠ [some 0, some 0] := by
  have hdata : (NST.normalize ⟨[5, 5], [2], "float32"⟩).data = [none, none] := by
    norm_num [NST.normalize, normalizeData, jsMin, jsMax]
  exact ⟨hdata, by rw [hdata]; simp⟩

/-- Claim C5, amended: `normalize` on a nonempty constant tensor raises
nothing and returns an all-NaN data buffer (for the float datatypes that
store NaN), never an all-zero result. -/
theorem normalize_constant_all_nan (t : NST) (c : Rat)
    (hne : t.data ≠ []) (hall : ∀ x ∈ t.data, x = c) :
    t.normalize.data = t.data.map fun _ => (none : Option Rat) := by
  have h1 := jsMin_const c t.data hne hall
  have h2 := jsMax_const c t.data hne hall
  simp [NST.normalize, normalizeData, h1, h2]

theorem normalize_constant_all_nan_witness :
    (NST.normalize ⟨[7, 7, 7], [3], "float64"⟩).data =
      ([7, 7, 7] : List Rat).map fun _ => (none : Option Rat) :=
  normalize_constant_all_nan ⟨[7, 7, 7], [3], "float64"⟩ 7
    (by simp) (by simp)

/-- Claim C6, counterexample: `concatenate` of two tensors whose
non-axis dimension differs (2 vs 3 at dimension 1, axis 0) does not fail
with ShapeMismatch: it succeeds and returns a (shape-inconsistent)
tensor. -/
theorem concatenate_mismatch_no_shapeError_cx :
    NST.concatenate ⟨[1, 2, 3, 4], [2, 2], "float32"⟩
        ⟨[1, 2, 3, 4, 5, 6], [2, 3], "float32"⟩ 0 =
      Except.ok ⟨[1, 2, 3, 4, 1, 2, 3, 4, 5, 6], [4, 2], "float32"⟩ ∧
      ([2, 2] : List Int).getD 1 0 ≠ ([2, 3] : List Int).getD 1 0 := by
  exact ⟨rfl, by decide⟩

/-- Claim C6, amended: `concatenate` validates only the axis index
(failing with "Invalid axis for concatenation" when it is outside
`[0, rank)`); it never compares the other dimensions.  Whenever the
axis is in range it succeeds, leaves both inputs untouched (a fresh
tensor is built), and the result shape is the first tensor's shape with
the axis entry replaced by the sum of the two axis entries. -/
theorem concatenate_axis_guard_and_shape :
    (∀ (t u : NST) (axis : Int),
        axis < 0 ∨ (t.shape.length : Int) ≤ axis →
        t.concatenate u axis =
          Except.error "Invalid axis for concatenation")
    ∧ ∀ (t u : NST) (axis : Int), 0 ≤ axis →
        axis < (t.shape.length : Int) →
        ∃ v, t.concatenate u axis = Except.ok v ∧
          v.data = t.data ++ u.data ∧
          v.shape.length = t.shape.length ∧
          v.shape.getD axis.toNat 0 =
            t.shape.getD axis.toNat 0 + u.shape.getD axis.toNat 0 ∧
          ∀ j, j ≠ axis.toNat → v.shape.getD j 0 = t.shape.getD j 0 := by
  constructor
  · intro t u axis h
    rw [NST.concatenate, if_pos h]
  · intro t u axis h0 hlt
    have hguard : ¬ (axis < 0 ∨ (t.shape.length : Int) ≤ axis) := by omega
    have hax : axis.toNat < t.shape.length := by omega
    refine ⟨_, by rw [NST.concatenate, if_neg hguard], rfl, ?_, ?_, ?_⟩
    · exact List.length_set _ _ _
    · rw [List.getD_eq_getElem?_getD, List.getElem?_set_eq_of_lt _ hax]
      rfl
    · intro j hj
      rw [List.getD_eq_getElem?_getD,
        List.getElem?_set_ne (fun h => hj h.symm),
        ← List.getD_eq_getElem?_getD]

theorem concatenate_axis_guard_and_shape_witness :
    NST.concatenate ⟨[1], [1], "float32"⟩ ⟨[1], [1], "float32"⟩ 5 =
      Except.error "Invalid axis for concatenation" ∧
    ∃ v, NST.concatenate ⟨[1, 2], [2], "float32"⟩ ⟨[3], [1], "float32"⟩ 0 =
        Except.ok v ∧
      v.data = ([1, 2] : List Rat) ++ [3] ∧
      v.shape.length = ([2] : List Int).length ∧
      v.shape.getD (0 : Int).toNat 0 =
        ([2] : List Int).getD (0 : Int).toNat 0 +
          ([1] : List Int).getD (0 : Int).toNat 0 ∧
      ∀ j, j ≠ (0 : Int).toNat →
        v.shape.getD j 0 = ([2] : List Int).getD j 0 :=
  ⟨concatenate_axis_guard_and_shape.1 ⟨[1], [1], "float32"⟩
      ⟨[1], [1], "float32"⟩ 5 (by decide),
   concatenate_axis_guard_and_shape.2 ⟨[1, 2], [2], "float32"⟩
      ⟨[3], [1], "float32"⟩ 0 (by decide) (by decide)⟩

/-- Claim C4, counterexample: `coordinatesToIndex` performs no
validation, so neither `get` nor `set` ever fails with IndexError: on a
2x2 tensor, `get` with the wrong-arity tuple `[3]` returns the element
at flat index 3 (value 4), and `set` with the out-of-range tuple
`[0, 5]` silently does nothing. -/
theorem get_set_no_indexError_cx :
    NST.get ⟨[1, 2, 3, 4], [2, 2], "float32"⟩ [3] = some 4 ∧
      NST.set ⟨[1, 2, 3, 4], [2, 2], "float32"⟩ [0, 5] 99 =
        ⟨[1, 2, 3, 4], [2, 2], "float32"⟩ ∧
      validB [2, 2] [3] = false ∧ validB [2, 2] [0, 5] = false := by
  exact ⟨rfl, rfl, by decide, by decide⟩

/-- Claim C4, amended: `get`/`set` never raise: the index computation is
unvalidated.  For a tuple of the right arity with every component in
range (on a tensor satisfying the `data.length = product(shape)`
invariant) the flat index lands inside the buffer and `get` returns an
element; invalid tuples silently alias another element, return
`undefined`, or make `set` a no-op, as the counterexample shows. -/
theorem get_in_range_returns_value (t : NST) (coords : List Int)
    (hlen : (t.data.length : Int) = t.shape.prod)
    (hv : validB t.shape coords = true) :
    ∃ i q, coordinatesToIndex t.shape coords = some i ∧ 0 ≤ i ∧
      i < t.shape.prod ∧ t.get coords = some q := by
  obtain ⟨r, heq, hr0, hrP⟩ := c2iGo_bound t.shape coords hv 0
  rw [zero_mul, zero_add] at heq
  have hidx : coordinatesToIndex t.shape coords = some r := heq
  have hltn : r.toNat < t.data.length := by omega
  refine ⟨r, t.data.get ⟨r.toNat, hltn⟩, hidx, hr0, hrP, ?_⟩
  simp only [NST.get, hidx, if_pos hr0]
  exact List.getElem?_eq_getElem hltn

theorem get_in_range_returns_value_witness :
    ∃ i q,
      coordinatesToIndex (NST.mk [10, 11, 12, 13, 14, 15] [2, 3] "float32").shape
          [1, 2] = some i ∧ 0 ≤ i ∧
        i < (NST.mk [10, 11, 12, 13, 14, 15] [2, 3] "float32").shape.prod ∧
        NST.get ⟨[10, 11, 12, 13, 14, 15], [2, 3], "float32"⟩ [1, 2] = some q :=
  get_in_range_returns_value ⟨[10, 11, 12, 13, 14, 15], [2, 3], "float32"⟩
    [1, 2] (by decide) (by decide)

/-- Claim C9: on a tensor satisfying the length invariant, for every
valid coordinate tuple `c` and value `v`, `set c v` followed by `get c`
returns `v`, and every other valid coordinate tuple reads the same value
as before the `set` (row-major flat indices of distinct valid tuples are
distinct). -/
theorem set_then_get (t : NST) (c c' : List Int) (v : Rat)
    (hlen : (t.data.length : Int) = t.shape.prod)
    (hc : validB t.shape c = true) (hc' : validB t.shape c' = true) :
    (t.set c v).get c = some v ∧
      (c' ≠ c → (t.set c v).get c' = t.get c') := by
  obtain ⟨r, heqr, hr0, hrP⟩ := c2iGo_bound t.shape c hc 0
  rw [zero_mul, zero_add] at heqr
  obtain ⟨r', heqr', hr'0, hr'P⟩ := c2iGo_bound t.shape c' hc' 0
  rw [zero_mul, zero_add] at heqr'
  have hidx : coordinatesToIndex t.shape c = some r := heqr
  have hidx' : coordinatesToIndex t.shape c' = some r' := heqr'
  have hltn : r.toNat < t.data.length := by omega
  have hset : t.set c v = { t with data := t.data.set r.toNat v } := by
    simp [NST.set, hidx, hr0]
  constructor
  · rw [hset]
    have hget : NST.get { t with data := t.data.set r.toNat v } c =
        (t.data.set r.toNat v)[r.toNat]? := by
      simp [NST.get, hidx, hr0]
    rw [hget]
    exact List.getElem?_set_eq_of_lt v hltn
  · intro hne
    have hrr : r ≠ r' := by
      intro hEq
      exact hne (c2iGo_inj t.shape c' c 0 hc' hc (by rw [heqr', heqr, hEq]))
    have h1 : NST.get (t.set c v) c' = (t.data.set r.toNat v)[r'.toNat]? := by
      rw [hset]
      simp [NST.get, hidx', hr'0]
    have h2 : NST.get t c' = t.data[r'.toNat]? := by
      simp [NST.get, hidx', hr'0]
    rw [h1, h2]
    exact List.getElem?_set_ne (by omega : r.toNat ≠ r'.toNat)

theorem set_then_get_witness :
    (NST.set ⟨[0, 0, 0, 0, 0, 0], [2, 3], "float32"⟩ [1, 2] 7).get [1, 2] =
        some 7 ∧
      (([0, 0] : List Int) ≠ [1, 2] →
        (NST.set ⟨[0, 0, 0, 0, 0, 0], [2, 3], "float32"⟩ [1, 2] 7).get [0, 0] =
          NST.get ⟨[0, 0, 0, 0, 0, 0], [2, 3], "float32"⟩ [0, 0]) :=
  set_then_get ⟨[0, 0, 0, 0, 0, 0], [2, 3], "float32"⟩ [1, 2] [0, 0] 7
    (by decide) (by decide) (by decide)
